import Mathlib

/-!
Verification of the prediction-market contract in `src/contract/src/lib.rs`.

The file contains a shallow embedding of the contract state and of its four
operations (`create_market`, `place_bet`, `resolve_market`, `claim_reward`),
followed by a reachability relation over successful operations, a state
invariant, and theorems settling the specified properties.

Modelling conventions:
* `Amount` is the SDK's 128-bit unsigned token amount; it is modelled as a
  natural number together with explicit `AMOUNT_MAX` (= 2 ^ 128) overflow
  checks at every arithmetic step the source performs.  The SDK amount type
  uses checked arithmetic, so an overflowing operation panics; a panic aborts
  the whole transaction and the runtime discards every state change, hence an
  overflow is modelled as an error result carrying the pre-call state.
* `Owner` is an opaque comparable identity (the authenticated signer),
  modelled as a natural number.  `Timestamp` is a natural number of
  milliseconds.  The auto-incrementing `u64` market-id counter is modelled as
  an unbounded natural number (ids are never reused; exhausting 2 ^ 64 ids is
  not modelled), and `end_time = now + duration_minutes * 60 * 1000` is plain
  natural arithmetic (no specified behaviour depends on its magnitude).
* `BTreeMap` is modelled as an association list: `alookup` returns the first
  binding of a key, `ainsert` replaces the first binding (or appends a new
  one); reachable states keep keys duplicate-free.
* Every operation takes the pre-state, the optional authenticated signer and
  the host timestamp, and returns the post-state paired with either the list
  of emitted effects or the error string taken verbatim from the source.
  All `Err` returns in the source happen before any state mutation, so each
  error branch below returns the unchanged input state.
-/

/-- Upper bound of the 128-bit amount type: 2 ^ 128. -/
def AMOUNT_MAX : Nat := 340282366920938463463374607431768211456

/-- `MarketStatus` from the source (Active / Locked / Resolved). -/
inductive MarketStatus where
  | Active
  | Locked
  | Resolved
deriving DecidableEq, Repr

/-- First binding of key `k` in an association list (`BTreeMap::get`). -/
def alookup {α β : Type} [DecidableEq α] (k : α) : List (α × β) → Option β
  | [] => none
  | (k₀, v₀) :: rest => if k = k₀ then some v₀ else alookup k rest

/-- Replace the first binding of `k` (or append one): `BTreeMap::insert`. -/
def ainsert {α β : Type} [DecidableEq α] (k : α) (v : β) : List (α × β) → List (α × β)
  | [] => [(k, v)]
  | (k₀, v₀) :: rest => if k = k₀ then (k, v) :: rest else (k₀, v₀) :: ainsert k v rest

/-- `BTreeMap::contains_key`. -/
def containsKeyA {α β : Type} [DecidableEq α] (k : α) (l : List (α × β)) : Bool :=
  (alookup k l).isSome

/-- A market record (`struct Market`). -/
structure Market where
  id : Nat
  creator : Nat
  question : String
  description : String
  end_time : Nat
  status : MarketStatus
  options : List String
  correct_answer : Option String
  bets : List (String × Nat)
  total_pool : Nat
  max_reward : Nat
  created_at : Nat
deriving DecidableEq, Repr

/-- A user bet (`struct Bet`). -/
structure Bet where
  market_id : Nat
  user : Nat
  option : String
  amount : Nat
  timestamp : Nat
  claimed : Bool
  reward_amount : Nat
deriving DecidableEq, Repr

/-- The stored application state (`struct PredictionMarketState`). -/
structure PredictionMarketState where
  next_market_id : Nat
  markets : List (Nat × Market)
  user_bets : List ((Nat × Nat) × Bet)
deriving DecidableEq, Repr

/-- Events emitted by the contract (`enum PredictionMarketEffect`). -/
inductive PredictionMarketEffect where
  | MarketCreated (market_id : Nat) (creator : Nat)
  | BetPlaced (market_id : Nat) (user : Nat) (option : String) (amount : Nat)
  | MarketResolved (market_id : Nat) (correct_answer : String)
  | RewardClaimed (market_id : Nat) (user : Nat) (amount : Nat)
deriving DecidableEq, Repr

/-- Result of one operation: post-state plus effects or the error string. -/
abbrev OpResult := PredictionMarketState × Except String (List PredictionMarketEffect)

/-- `PredictionMarketState::default()`. -/
def initState : PredictionMarketState :=
  { next_market_id := 1, markets := [], user_bets := [] }

/-- Shallow embedding of `create_market` (lib.rs lines 210-265). -/
def create_market (s : PredictionMarketState) (signer : Option Nat) (now : Nat)
    (question description : String) (duration_minutes : Nat)
    (options : List String) (max_reward : Nat) : OpResult :=
  if question.isEmpty then (s, .error "Question cannot be empty")
  else if options.length < 2 then (s, .error "At least 2 options required")
  else if max_reward = 0 then (s, .error "Max reward must be greater than 0")
  else
    match signer with
    | none => (s, .error "Unauthorized: No authenticated signer")
    | some creator =>
      let end_time := now + duration_minutes * 60 * 1000
      let market_id := s.next_market_id
      let market : Market :=
        { id := market_id, creator := creator, question := question,
          description := description, end_time := end_time,
          status := .Active, options := options, correct_answer := none,
          bets := [], total_pool := 0, max_reward := max_reward,
          created_at := now }
      ({ s with markets := ainsert market_id market s.markets,
                next_market_id := s.next_market_id + 1 },
       .ok [.MarketCreated market_id creator])

/-- Shallow embedding of `place_bet` (lib.rs lines 268-341).  The two
overflow branches model the panics of the checked `Amount` additions at
lines 331-332; the source inserts the user bet (line 327) before those
additions, but a panic aborts the transaction, so the pre-call state is
returned. -/
def place_bet (s : PredictionMarketState) (signer : Option Nat) (now : Nat)
    (market_id : Nat) (option : String) (amount : Nat) : OpResult :=
  if amount = 0 then (s, .error "Bet amount must be greater than 0")
  else
    match signer with
    | none => (s, .error "Unauthorized: No authenticated signer")
    | some user =>
      match alookup market_id s.markets with
      | none => (s, .error ("Market " ++ toString market_id ++ " not found"))
      | some market =>
        if market.status ≠ .Active then (s, .error "Market is not active")
        else if market.end_time ≤ now then (s, .error "Market has ended")
        else if ¬ option ∈ market.options then
          (s, .error ("Invalid option: " ++ option))
        else if containsKeyA (market_id, user) s.user_bets then
          (s, .error "User already placed a bet on this market")
        else
          let bet : Bet :=
            { market_id := market_id, user := user, option := option,
              amount := amount, timestamp := now, claimed := false,
              reward_amount := 0 }
          let option_total := (alookup option market.bets).getD 0
          if AMOUNT_MAX ≤ option_total + amount then
            (s, .error "panic: Amount overflow")
          else if AMOUNT_MAX ≤ market.total_pool + amount then
            (s, .error "panic: Amount overflow")
          else
            let market1 : Market :=
              { market with
                bets := ainsert option (option_total + amount) market.bets,
                total_pool := market.total_pool + amount }
            ({ s with
                user_bets := ainsert (market_id, user) bet s.user_bets,
                markets := ainsert market_id market1 s.markets },
             .ok [.BetPlaced market_id user option amount])

/-- The reward-assignment loop body of `resolve_market` (lib.rs lines
389-405) as a pure recursion over the bet ledger.  The multiplication
`bet.amount * total_pool` is performed in the 128-bit amount type, so a
product reaching `AMOUNT_MAX` panics (modelled as an error aborting the
whole operation). -/
def assignRewards (market_id : Nat) (correct_answer : String)
    (total_pool winning max_reward : Nat) :
    List ((Nat × Nat) × Bet) → Except String (List ((Nat × Nat) × Bet))
  | [] => .ok []
  | (k, b) :: rest =>
    if k.1 = market_id ∧ b.option = correct_answer then
      match
        (if 0 < total_pool ∧ 0 < winning then
          (if b.amount * total_pool < AMOUNT_MAX then
            Except.ok (b.amount * total_pool / winning)
          else Except.error "panic: Amount overflow")
        else Except.ok 0 : Except String Nat) with
      | .error e => .error e
      | .ok reward =>
        let capped := if max_reward < reward then max_reward else reward
        match assignRewards market_id correct_answer total_pool winning max_reward rest with
        | .error e => .error e
        | .ok rest1 => .ok ((k, { b with reward_amount := capped }) :: rest1)
    else
      match assignRewards market_id correct_answer total_pool winning max_reward rest with
      | .error e => .error e
      | .ok rest1 => .ok ((k, b) :: rest1)

/-- Shallow embedding of `resolve_market` (lib.rs lines 344-413). -/
def resolve_market (s : PredictionMarketState) (signer : Option Nat) (now : Nat)
    (market_id : Nat) (correct_answer : String) : OpResult :=
  match signer with
  | none => (s, .error "Unauthorized: No authenticated signer")
  | some caller =>
    match alookup market_id s.markets with
    | none => (s, .error ("Market " ++ toString market_id ++ " not found"))
    | some market =>
      if market.creator ≠ caller then (s, .error "Only creator can resolve market")
      else if market.status = .Resolved then (s, .error "Market already resolved")
      else if now < market.end_time then (s, .error "Market has not ended yet")
      else if ¬ correct_answer ∈ market.options then
        (s, .error ("Invalid correct answer: " ++ correct_answer))
      else
        let market1 : Market :=
          { market with status := .Resolved, correct_answer := some correct_answer }
        let winning := (alookup correct_answer market.bets).getD 0
        if 0 < winning then
          match assignRewards market_id correct_answer market.total_pool winning
              market.max_reward s.user_bets with
          | .error e => (s, .error e)
          | .ok bets1 =>
            ({ s with markets := ainsert market_id market1 s.markets,
                      user_bets := bets1 },
             .ok [.MarketResolved market_id correct_answer])
        else
          ({ s with markets := ainsert market_id market1 s.markets },
           .ok [.MarketResolved market_id correct_answer])

/-- Shallow embedding of `claim_reward` (lib.rs lines 416-470).  The `none`
branch of `correct_answer` models the `unwrap()` at line 443. -/
def claim_reward (s : PredictionMarketState) (signer : Option Nat)
    (market_id : Nat) : OpResult :=
  match signer with
  | none => (s, .error "Unauthorized: No authenticated signer")
  | some user =>
    match alookup market_id s.markets with
    | none => (s, .error ("Market " ++ toString market_id ++ " not found"))
    | some market =>
      if market.status ≠ .Resolved then (s, .error "Market is not resolved")
      else
        match alookup (market_id, user) s.user_bets with
        | none => (s, .error "User has no bet on this market")
        | some bet =>
          match market.correct_answer with
          | none => (s, .error "panic: called Option::unwrap on a None value")
          | some ca =>
            if bet.option ≠ ca then (s, .error "User did not win this market")
            else if bet.claimed then (s, .error "Reward already claimed")
            else if bet.reward_amount = 0 then (s, .error "No reward available")
            else
              ({ s with user_bets :=
                  ainsert (market_id, user) { bet with claimed := true } s.user_bets },
               .ok [.RewardClaimed market_id user bet.reward_amount])

/-- One externally triggered action (`enum PredictionMarketMessage`,
together with the host-supplied signer and timestamp). -/
inductive ContractAction where
  | createMarket (signer : Option Nat) (now : Nat) (question description : String)
      (duration_minutes : Nat) (options : List String) (max_reward : Nat)
  | placeBet (signer : Option Nat) (now : Nat) (market_id : Nat)
      (option : String) (amount : Nat)
  | resolveMarket (signer : Option Nat) (now : Nat) (market_id : Nat)
      (correct_answer : String)
  | claimReward (signer : Option Nat) (market_id : Nat)
deriving DecidableEq, Repr

/-- `execute_message`: dispatch one action against the state. -/
def applyAction (s : PredictionMarketState) : ContractAction → OpResult
  | .createMarket signer now question description duration options max_reward =>
    create_market s signer now question description duration options max_reward
  | .placeBet signer now market_id option amount =>
    place_bet s signer now market_id option amount
  | .resolveMarket signer now market_id correct_answer =>
    resolve_market s signer now market_id correct_answer
  | .claimReward signer market_id =>
    claim_reward s signer market_id

/-- States reachable from the initial state by successful operations. -/
inductive Reachable : PredictionMarketState → Prop where
  | init : Reachable initState
  | step (s : PredictionMarketState) (a : ContractAction) (hs : Reachable s)
      (h : (applyAction s a).2.isOk = true) : Reachable (applyAction s a).1

/-! ## Association-list lemmas -/

theorem alookup_ainsert_self {α β : Type} [DecidableEq α] (k : α) (v : β)
    (l : List (α × β)) : alookup k (ainsert k v l) = some v := by
  induction l with
  | nil => simp [alookup, ainsert]
  | cons hd tl ih =>
    obtain ⟨k₀, v₀⟩ := hd
    by_cases h : k = k₀
    · simp [alookup, ainsert, h]
    · simp [alookup, ainsert, h, ih]

theorem alookup_ainsert_ne {α β : Type} [DecidableEq α] {k k₀ : α} (v : β)
    (l : List (α × β)) (h : k ≠ k₀) :
    alookup k (ainsert k₀ v l) = alookup k l := by
  induction l with
  | nil => simp [alookup, ainsert, h]
  | cons hd tl ih =>
    obtain ⟨k₁, v₁⟩ := hd
    by_cases h₁ : k₀ = k₁
    · subst h₁
      simp [alookup, ainsert, h]
    · by_cases h₂ : k = k₁ <;> simp [alookup, ainsert, h₁, h₂, ih]

theorem mem_keys_of_mem_keys_ainsert {α β : Type} [DecidableEq α]
    {x k : α} (v : β) (l : List (α × β))
    (h : x ∈ (ainsert k v l).map Prod.fst) : x = k ∨ x ∈ l.map Prod.fst := by
  induction l with
  | nil => simpa [ainsert] using h
  | cons hd tl ih =>
    obtain ⟨k₀, v₀⟩ := hd
    by_cases h₀ : k = k₀
    · subst h₀
      simpa [ainsert] using h
    · simp only [ainsert, if_neg h₀, List.map_cons, List.mem_cons] at h
      rcases h with h | h
      · exact Or.inr (by simp [h])
      · rcases ih h with h | h
        · exact Or.inl h
        · exact Or.inr (by simp [h])

/-- Keys of an association list, duplicate-free. -/
def NodupKeys {α β : Type} (l : List (α × β)) : Prop := (l.map Prod.fst).Nodup

theorem nodupKeys_ainsert {α β : Type} [DecidableEq α] (k : α) (v : β)
    {l : List (α × β)} (h : NodupKeys l) : NodupKeys (ainsert k v l) := by
  induction l with
  | nil => simp [NodupKeys, ainsert]
  | cons hd tl ih =>
    obtain ⟨k₀, v₀⟩ := hd
    unfold NodupKeys at h
    simp only [List.map_cons, List.nodup_cons] at h
    by_cases h₀ : k = k₀
    · subst h₀
      unfold NodupKeys
      simpa [ainsert] using h
    · have htl : NodupKeys (ainsert k v tl) := ih h.2
      unfold NodupKeys
      simp only [ainsert, if_neg h₀, List.map_cons, List.nodup_cons]
      refine ⟨?_, htl⟩
      intro hmem
      rcases mem_keys_of_mem_keys_ainsert v tl hmem with h₁ | h₁
      · exact h₀ (h₁.symm)
      · exact h.1 h₁

theorem alookup_eq_none_of_not_containsKey {α β : Type} [DecidableEq α]
    {k : α} {l : List (α × β)} (h : containsKeyA k l = false) :
    alookup k l = none := by
  unfold containsKeyA at h
  cases hv : alookup k l with
  | none => rfl
  | some v => rw [hv] at h; simp at h

theorem ainsert_of_alookup_none {α β : Type} [DecidableEq α]
    {k : α} (v : β) {l : List (α × β)} (h : alookup k l = none) :
    ainsert k v l = l ++ [(k, v)] := by
  induction l with
  | nil => simp [ainsert]
  | cons hd tl ih =>
    obtain ⟨k₀, v₀⟩ := hd
    by_cases h₀ : k = k₀
    · simp [alookup, h₀] at h
    · simp only [alookup, if_neg h₀] at h
      simp [ainsert, if_neg h₀, ih h]

theorem alookup_mem {α β : Type} [DecidableEq α]
    {k : α} {v : β} {l : List (α × β)} (h : alookup k l = some v) : (k, v) ∈ l := by
  induction l with
  | nil => simp [alookup] at h
  | cons hd tl ih =>
    obtain ⟨k₀, v₀⟩ := hd
    by_cases h₀ : k = k₀
    · simp only [alookup, if_pos h₀] at h
      simp [h₀, ← Option.some_inj.mp h]
    · simp only [alookup, if_neg h₀] at h
      exact List.mem_cons_of_mem _ (ih h)

/-- Lookup through a map that rewrites values but keeps keys. -/
theorem alookup_map_keyfn {α β γ : Type} [DecidableEq α]
    (g : α → β → γ) (k : α) (l : List (α × β)) :
    alookup k (l.map (fun kb => (kb.1, g kb.1 kb.2))) = (alookup k l).map (g k) := by
  induction l with
  | nil => simp [alookup]
  | cons hd tl ih =>
    obtain ⟨k₀, v₀⟩ := hd
    by_cases h₀ : k = k₀
    · subst h₀
      simp [alookup]
    · simp [alookup, h₀, ih]

/-! ## Sums over the bet maps -/

/-- Sum of the values of a `String ↦ Amount` map (`sum(bets.values())`). -/
def sumValues : List (String × Nat) → Nat
  | [] => 0
  | (_, v) :: rest => v + sumValues rest

theorem sumValues_append (l₁ l₂ : List (String × Nat)) :
    sumValues (l₁ ++ l₂) = sumValues l₁ + sumValues l₂ := by
  induction l₁ with
  | nil => simp [sumValues]
  | cons hd tl ih =>
    obtain ⟨k, v⟩ := hd
    simp [sumValues, ih]
    omega

theorem sumValues_ainsert (k : String) (v : Nat) (l : List (String × Nat)) :
    sumValues (ainsert k v l) + (alookup k l).getD 0 = sumValues l + v := by
  induction l with
  | nil => simp [sumValues, ainsert, alookup]
  | cons hd tl ih =>
    obtain ⟨k₀, v₀⟩ := hd
    by_cases h₀ : k = k₀
    · subst h₀
      simp [sumValues, ainsert, alookup]
      omega
    · simp only [ainsert, if_neg h₀, sumValues, alookup]
      omega

theorem alookup_getD_le_sumValues (k : String) (l : List (String × Nat)) :
    (alookup k l).getD 0 ≤ sumValues l := by
  induction l with
  | nil => simp [alookup, sumValues]
  | cons hd tl ih =>
    obtain ⟨k₀, v₀⟩ := hd
    by_cases h₀ : k = k₀
    · subst h₀
      simp [alookup, sumValues]
    · simp only [alookup, if_neg h₀, sumValues]
      omega

/-- Total stake recorded in the bet ledger for one option of one market. -/
def optionStake (mid : Nat) (o : String) : List ((Nat × Nat) × Bet) → Nat
  | [] => 0
  | (k, b) :: rest =>
    (if k.1 = mid ∧ b.option = o then b.amount else 0) + optionStake mid o rest

theorem optionStake_append (mid : Nat) (o : String)
    (l₁ l₂ : List ((Nat × Nat) × Bet)) :
    optionStake mid o (l₁ ++ l₂) = optionStake mid o l₁ + optionStake mid o l₂ := by
  induction l₁ with
  | nil => simp [optionStake]
  | cons hd tl ih =>
    obtain ⟨k, b⟩ := hd
    simp [optionStake, ih]
    omega

theorem optionStake_eq_zero (mid : Nat) (o : String)
    {l : List ((Nat × Nat) × Bet)}
    (h : ∀ k b, (k, b) ∈ l → k.1 ≠ mid) : optionStake mid o l = 0 := by
  induction l with
  | nil => rfl
  | cons hd tl ih =>
    obtain ⟨k, b⟩ := hd
    have hk : k.1 ≠ mid := h k b (List.mem_cons_self _ _)
    have hcond : ¬ (k.1 = mid ∧ b.option = o) := fun hc => hk hc.1
    have htl : optionStake mid o tl = 0 :=
      ih (fun k₀ b₀ hm => h k₀ b₀ (List.mem_cons_of_mem _ hm))
    simp only [optionStake, if_neg hcond, htl]

theorem amount_le_optionStake {mid : Nat} {o : String} {k : Nat × Nat} {b : Bet}
    {l : List ((Nat × Nat) × Bet)} (hmem : (k, b) ∈ l)
    (hk : k.1 = mid) (ho : b.option = o) : b.amount ≤ optionStake mid o l := by
  induction l with
  | nil => simp at hmem
  | cons hd tl ih =>
    obtain ⟨k₀, b₀⟩ := hd
    rcases List.mem_cons.mp hmem with h | h
    · have hk₀ : k = k₀ := congrArg Prod.fst h
      have hb₀ : b = b₀ := congrArg Prod.snd h
      subst hk₀
      subst hb₀
      simp only [optionStake, if_pos (And.intro hk ho)]
      omega
    · have htl := ih h
      by_cases hc : k₀.1 = mid ∧ b₀.option = o
      · simp only [optionStake, if_pos hc]
        omega
      · simp only [optionStake, if_neg hc]
        omega

/-- Replacing the first binding of a present key by a bet with the same
market, option and amount leaves every option stake unchanged. -/
theorem optionStake_ainsert_same (mid : Nat) (o : String)
    {k : Nat × Nat} (b b1 : Bet) {l : List ((Nat × Nat) × Bet)}
    (hl : alookup k l = some b)
    (ha : b1.amount = b.amount) (ho : b1.option = b.option) :
    optionStake mid o (ainsert k b1 l) = optionStake mid o l := by
  induction l with
  | nil => simp [alookup] at hl
  | cons hd tl ih =>
    obtain ⟨k₀, b₀⟩ := hd
    by_cases h₀ : k = k₀
    · simp only [alookup, if_pos h₀] at hl
      have hb : b₀ = b := Option.some_inj.mp hl
      subst hb
      simp only [ainsert, if_pos h₀, optionStake]
      rw [h₀, ha, ho]
    · simp only [alookup, if_neg h₀] at hl
      simp only [ainsert, if_neg h₀, optionStake]
      rw [ih hl]

/-! ## Characterizing the reward-assignment loop -/

/-- The pure per-bet reward update performed by a non-panicking pass of the
resolution loop. -/
def rewardOf (market_id : Nat) (correct_answer : String)
    (total_pool winning max_reward : Nat) (k : Nat × Nat) (b : Bet) : Bet :=
  if k.1 = market_id ∧ b.option = correct_answer then
    let reward := if 0 < total_pool ∧ 0 < winning then b.amount * total_pool / winning else 0
    { b with reward_amount := if max_reward < reward then max_reward else reward }
  else b

theorem rewardOf_amount (market_id : Nat) (correct_answer : String)
    (total_pool winning max_reward : Nat) (k : Nat × Nat) (b : Bet) :
    (rewardOf market_id correct_answer total_pool winning max_reward k b).amount
      = b.amount := by
  unfold rewardOf
  split <;> rfl

theorem rewardOf_option (market_id : Nat) (correct_answer : String)
    (total_pool winning max_reward : Nat) (k : Nat × Nat) (b : Bet) :
    (rewardOf market_id correct_answer total_pool winning max_reward k b).option
      = b.option := by
  unfold rewardOf
  split <;> rfl

theorem rewardOf_claimed (market_id : Nat) (correct_answer : String)
    (total_pool winning max_reward : Nat) (k : Nat × Nat) (b : Bet) :
    (rewardOf market_id correct_answer total_pool winning max_reward k b).claimed
      = b.claimed := by
  unfold rewardOf
  split <;> rfl

theorem rewardOf_of_ne (market_id : Nat) (correct_answer : String)
    (total_pool winning max_reward : Nat) (k : Nat × Nat) (b : Bet)
    (h : ¬ (k.1 = market_id ∧ b.option = correct_answer)) :
    rewardOf market_id correct_answer total_pool winning max_reward k b = b := by
  unfold rewardOf
  exact if_neg h

theorem rewardOf_of_eq (market_id : Nat) (correct_answer : String)
    (total_pool winning max_reward : Nat) (k : Nat × Nat) (b : Bet)
    (h : k.1 = market_id ∧ b.option = correct_answer) :
    rewardOf market_id correct_answer total_pool winning max_reward k b =
      { b with reward_amount :=
          if max_reward <
              (if 0 < total_pool ∧ 0 < winning then b.amount * total_pool / winning else 0)
          then max_reward
          else if 0 < total_pool ∧ 0 < winning then b.amount * total_pool / winning else 0 } := by
  unfold rewardOf
  rw [if_pos h]

/-- A successful pass of the resolution loop rewrites every bet through
`rewardOf` (and in particular touches nothing but `reward_amount`). -/
theorem assignRewards_ok_eq {market_id : Nat} {correct_answer : String}
    {total_pool winning max_reward : Nat} {l l1 : List ((Nat × Nat) × Bet)}
    (h : assignRewards market_id correct_answer total_pool winning max_reward l = .ok l1) :
    l1 = l.map (fun kb =>
      (kb.1, rewardOf market_id correct_answer total_pool winning max_reward kb.1 kb.2)) := by
  induction l generalizing l1 with
  | nil =>
    simp only [assignRewards] at h
    cases h
    rfl
  | cons hd tl ih =>
    obtain ⟨k, b⟩ := hd
    by_cases hm : k.1 = market_id ∧ b.option = correct_answer
    · simp only [assignRewards, if_pos hm] at h
      by_cases hp : 0 < total_pool ∧ 0 < winning
      · rw [if_pos hp] at h
        by_cases ho : b.amount * total_pool < AMOUNT_MAX
        · rw [if_pos ho] at h
          cases htl : assignRewards market_id correct_answer total_pool winning max_reward tl with
          | error e => rw [htl] at h; exact absurd h (by simp)
          | ok rest1 =>
            rw [htl] at h
            simp only at h
            cases h
            simp only [List.map_cons]
            rw [← ih htl]
            rw [rewardOf_of_eq _ _ _ _ _ _ _ hm, if_pos hp]
        · rw [if_neg ho] at h
          exact absurd h (by simp)
      · rw [if_neg hp] at h
        cases htl : assignRewards market_id correct_answer total_pool winning max_reward tl with
        | error e => rw [htl] at h; exact absurd h (by simp)
        | ok rest1 =>
          rw [htl] at h
          simp only at h
          cases h
          simp only [List.map_cons]
          rw [← ih htl]
          rw [rewardOf_of_eq _ _ _ _ _ _ _ hm, if_neg hp]
    · simp only [assignRewards, if_neg hm] at h
      cases htl : assignRewards market_id correct_answer total_pool winning max_reward tl with
      | error e => rw [htl] at h; exact absurd h (by simp)
      | ok rest1 =>
        rw [htl] at h
        simp only at h
        cases h
        simp only [List.map_cons]
        rw [← ih htl]
        rw [rewardOf_of_ne _ _ _ _ _ _ _ hm]

/-- The resolution loop succeeds whenever no winner's product overflows. -/
theorem assignRewards_ok_of_no_overflow {market_id : Nat} {correct_answer : String}
    {total_pool winning max_reward : Nat} {l : List ((Nat × Nat) × Bet)}
    (h : ∀ k b, (k, b) ∈ l → k.1 = market_id → b.option = correct_answer →
        0 < total_pool → 0 < winning → b.amount * total_pool < AMOUNT_MAX) :
    ∃ l1, assignRewards market_id correct_answer total_pool winning max_reward l = .ok l1 := by
  induction l with
  | nil => exact ⟨[], rfl⟩
  | cons hd tl ih =>
    obtain ⟨k, b⟩ := hd
    obtain ⟨tl1, htl⟩ := ih (fun k₀ b₀ hm => h k₀ b₀ (List.mem_cons_of_mem _ hm))
    by_cases hm : k.1 = market_id ∧ b.option = correct_answer
    · by_cases hp : 0 < total_pool ∧ 0 < winning
      · have ho : b.amount * total_pool < AMOUNT_MAX :=
          h k b (List.mem_cons_self _ _) hm.1 hm.2 hp.1 hp.2
        simp only [assignRewards, if_pos hm, if_pos hp, if_pos ho, htl]
        exact ⟨_, rfl⟩
      · simp only [assignRewards, if_pos hm, if_neg hp, htl]
        exact ⟨_, rfl⟩
    · simp only [assignRewards, if_neg hm, htl]
      exact ⟨_, rfl⟩

/-! ## Success characterizations of the four operations -/

theorem place_bet_ok {s s' : PredictionMarketState} {sg : Option Nat} {now mid : Nat}
    {o : String} {amt : Nat} {ev : List PredictionMarketEffect}
    (h : place_bet s sg now mid o amt = (s', .ok ev)) :
    ∃ user market, sg = some user ∧ alookup mid s.markets = some market ∧
      amt ≠ 0 ∧ market.status = .Active ∧ now < market.end_time ∧
      o ∈ market.options ∧ alookup (mid, user) s.user_bets = none ∧
      (alookup o market.bets).getD 0 + amt < AMOUNT_MAX ∧
      market.total_pool + amt < AMOUNT_MAX ∧
      ev = [.BetPlaced mid user o amt] ∧
      s' = { s with
        user_bets := ainsert (mid, user)
          { market_id := mid, user := user, option := o, amount := amt,
            timestamp := now, claimed := false, reward_amount := 0 } s.user_bets,
        markets := ainsert mid
          { market with
            bets := ainsert o ((alookup o market.bets).getD 0 + amt) market.bets,
            total_pool := market.total_pool + amt } s.markets } := by
  unfold place_bet at h
  split at h
  · simp at h
  next h0 =>
  cases sg with
  | none => simp at h
  | some user =>
  simp only at h
  cases hmk : alookup mid s.markets with
  | none => rw [hmk] at h; simp at h
  | some market =>
  rw [hmk] at h
  simp only at h
  split at h
  · simp at h
  next hst =>
  split at h
  · simp at h
  next hend =>
  split at h
  · simp at h
  next hopt =>
  split at h
  · simp at h
  next hdup =>
  split at h
  · simp at h
  next hov1 =>
  split at h
  · simp at h
  next hov2 =>
  simp only [Prod.mk.injEq] at h
  obtain ⟨hs', hev⟩ := h
  refine ⟨user, market, rfl, rfl, h0, ?_, ?_, ?_, ?_, ?_, ?_, ?_, ?_⟩
  · by_contra hne
    exact hst (fun hc => hne (by cases market.status <;> simp_all))
  · omega
  · by_contra hne
    exact hopt hne
  · exact alookup_eq_none_of_not_containsKey (by simpa using hdup)
  · omega
  · omega
  · exact (Except.ok.injEq .. ▸ hev).symm ▸ rfl
  · exact hs'.symm

theorem create_market_ok {s s' : PredictionMarketState} {sg : Option Nat} {now : Nat}
    {q d : String} {dur : Nat} {opts : List String} {mr : Nat}
    {ev : List PredictionMarketEffect}
    (h : create_market s sg now q d dur opts mr = (s', .ok ev)) :
    ∃ creator, sg = some creator ∧ ¬ q.isEmpty ∧ 2 ≤ opts.length ∧ 0 < mr ∧
      ev = [.MarketCreated s.next_market_id creator] ∧
      s' = { s with
        markets := ainsert s.next_market_id
          { id := s.next_market_id, creator := creator, question := q,
            description := d, end_time := now + dur * 60 * 1000,
            status := .Active, options := opts, correct_answer := none,
            bets := [], total_pool := 0, max_reward := mr,
            created_at := now } s.markets,
        next_market_id := s.next_market_id + 1 } := by
  unfold create_market at h
  split at h
  · simp at h
  next hq =>
  split at h
  · simp at h
  next hlen =>
  split at h
  · simp at h
  next hmr =>
  cases sg with
  | none => simp at h
  | some creator =>
  simp only [Prod.mk.injEq] at h
  obtain ⟨hs', hev⟩ := h
  refine ⟨creator, rfl, ?_, ?_, ?_, ?_, ?_⟩
  · simpa using hq
  · omega
  · omega
  · exact (Except.ok.injEq .. ▸ hev).symm ▸ rfl
  · exact hs'.symm

theorem resolve_market_ok {s s' : PredictionMarketState} {sg : Option Nat} {now mid : Nat}
    {ca : String} {ev : List PredictionMarketEffect}
    (h : resolve_market s sg now mid ca = (s', .ok ev)) :
    ∃ caller market, sg = some caller ∧ alookup mid s.markets = some market ∧
      market.creator = caller ∧ market.status ≠ .Resolved ∧
      market.end_time ≤ now ∧ ca ∈ market.options ∧
      ev = [.MarketResolved mid ca] ∧
      ((0 < (alookup ca market.bets).getD 0 ∧
        ∃ bets1,
          assignRewards mid ca market.total_pool ((alookup ca market.bets).getD 0)
            market.max_reward s.user_bets = .ok bets1 ∧
          s' = { s with
            markets := ainsert mid
              { market with status := .Resolved, correct_answer := some ca } s.markets,
            user_bets := bets1 }) ∨
       ((alookup ca market.bets).getD 0 = 0 ∧
        s' = { s with
          markets := ainsert mid
            { market with status := .Resolved, correct_answer := some ca } s.markets })) := by
  unfold resolve_market at h
  cases sg with
  | none => simp at h
  | some caller =>
  simp only at h
  cases hmk : alookup mid s.markets with
  | none => rw [hmk] at h; simp at h
  | some market =>
  rw [hmk] at h
  simp only at h
  split at h
  · simp at h
  next hcr =>
  split at h
  · simp at h
  next hres =>
  split at h
  · simp at h
  next hend =>
  split at h
  · simp at h
  next hca =>
  split at h
  next hwpos =>
    cases hass : assignRewards mid ca market.total_pool
        ((alookup ca market.bets).getD 0) market.max_reward s.user_bets with
    | error e => rw [hass] at h; simp at h
    | ok bets1 =>
      rw [hass] at h
      simp only [Prod.mk.injEq] at h
      obtain ⟨hs', hev⟩ := h
      refine ⟨caller, market, rfl, rfl, ?_, hres, ?_, ?_, ?_, Or.inl ⟨hwpos, bets1, hass, hs'.symm⟩⟩
      · by_contra hne
        exact hcr fun hc => hne (by simp_all)
      · omega
      · by_contra hne
        exact hca hne
      · exact (Except.ok.injEq .. ▸ hev).symm ▸ rfl
  next hwzero =>
    simp only [Prod.mk.injEq] at h
    obtain ⟨hs', hev⟩ := h
    refine ⟨caller, market, rfl, rfl, ?_, hres, ?_, ?_, ?_, Or.inr ⟨by omega, hs'.symm⟩⟩
    · by_contra hne
      exact hcr fun hc => hne (by simp_all)
    · omega
    · by_contra hne
      exact hca hne
    · exact (Except.ok.injEq .. ▸ hev).symm ▸ rfl

theorem claim_reward_ok {s s' : PredictionMarketState} {sg : Option Nat} {mid : Nat}
    {ev : List PredictionMarketEffect}
    (h : claim_reward s sg mid = (s', .ok ev)) :
    ∃ user market bet ca, sg = some user ∧ alookup mid s.markets = some market ∧
      market.status = .Resolved ∧ alookup (mid, user) s.user_bets = some bet ∧
      market.correct_answer = some ca ∧ bet.option = ca ∧
      bet.claimed = false ∧ bet.reward_amount ≠ 0 ∧
      ev = [.RewardClaimed mid user bet.reward_amount] ∧
      s' = { s with user_bets :=
              ainsert (mid, user) { bet with claimed := true } s.user_bets } := by
  unfold claim_reward at h
  cases sg with
  | none => simp at h
  | some user =>
  simp only at h
  cases hmk : alookup mid s.markets with
  | none => rw [hmk] at h; simp at h
  | some market =>
  rw [hmk] at h
  simp only at h
  split at h
  · simp at h
  next hres =>
  cases hbet : alookup (mid, user) s.user_bets with
  | none => rw [hbet] at h; simp at h
  | some bet =>
  rw [hbet] at h
  simp only at h
  cases hans : market.correct_answer with
  | none => rw [hans] at h; simp at h
  | some ca =>
  rw [hans] at h
  simp only at h
  split at h
  · simp at h
  next hwin =>
  split at h
  · simp at h
  next hcl =>
  split at h
  · simp at h
  next hzero =>
  simp only [Prod.mk.injEq] at h
  obtain ⟨hs', hev⟩ := h
  refine ⟨user, market, bet, ca, rfl, rfl, ?_, hbet, hans, ?_, ?_, hzero, ?_, hs'.symm⟩
  · cases hst : market.status <;> simp_all
  · by_contra hne
    exact hwin hne
  · cases hc : bet.claimed
    · rfl
    · exact absurd hc hcl
  · exact (Except.ok.injEq .. ▸ hev).symm ▸ rfl

/-- Any failing action leaves the stored state exactly as it was. -/
theorem applyAction_err {s : PredictionMarketState} {a : ContractAction}
    {s' : PredictionMarketState} {e : String}
    (h : applyAction s a = (s', .error e)) : s' = s := by
  cases a <;>
    simp only [applyAction, create_market, place_bet, resolve_market, claim_reward] at h <;>
    repeat' split at h
  all_goals
    first
    | (simp only [Prod.mk.injEq] at h; exact h.1.symm)
    | simp at h

/-! ## The reachable-state invariant -/

theorem mem_keys_of_mem {α β : Type} {k : α} {v : β} {l : List (α × β)}
    (h : (k, v) ∈ l) : k ∈ l.map Prod.fst :=
  List.mem_map_of_mem Prod.fst h

theorem alookup_of_mem_nodup {α β : Type} [DecidableEq α] {l : List (α × β)}
    (hnd : NodupKeys l) {k : α} {v : β} (hm : (k, v) ∈ l) :
    alookup k l = some v := by
  induction l with
  | nil => simp at hm
  | cons hd tl ih =>
    obtain ⟨k₀, v₀⟩ := hd
    unfold NodupKeys at hnd
    simp only [List.map_cons, List.nodup_cons] at hnd
    rcases List.mem_cons.mp hm with h | h
    · have hk : k = k₀ := congrArg Prod.fst h
      have hv : v = v₀ := congrArg Prod.snd h
      subst hk
      subst hv
      simp [alookup]
    · have hk : k ≠ k₀ := by
        intro hc
        subst hc
        exact hnd.1 (mem_keys_of_mem h)
      simp only [alookup, if_neg hk]
      exact ih hnd.2 h

theorem nodupKeys_map_keyfn {α β γ : Type} (g : α → β → γ)
    {l : List (α × β)} (h : NodupKeys l) :
    NodupKeys (l.map (fun kb => (kb.1, g kb.1 kb.2))) := by
  unfold NodupKeys at h ⊢
  rw [List.map_map]
  exact h

theorem optionStake_map_rewardOf (mid₀ : Nat) (o : String)
    (market_id : Nat) (correct_answer : String) (total_pool winning max_reward : Nat)
    (l : List ((Nat × Nat) × Bet)) :
    optionStake mid₀ o (l.map (fun kb =>
      (kb.1, rewardOf market_id correct_answer total_pool winning max_reward kb.1 kb.2)))
      = optionStake mid₀ o l := by
  induction l with
  | nil => rfl
  | cons hd tl ih =>
    obtain ⟨k, b⟩ := hd
    simp only [List.map_cons, optionStake,
      rewardOf_option, rewardOf_amount, ih]

/-- All facts maintained by every reachable state. -/
structure StateInv (s : PredictionMarketState) : Prop where
  markets_nodup : NodupKeys s.markets
  bets_nodup : NodupKeys s.user_bets
  id_lt : ∀ id m, alookup id s.markets = some m → id < s.next_market_id
  bet_market : ∀ k b, alookup k s.user_bets = some b →
    ∃ m, alookup k.1 s.markets = some m
  market_ok : ∀ id m, alookup id s.markets = some m →
    ¬ m.question.isEmpty ∧ 2 ≤ m.options.length ∧ 0 < m.max_reward ∧
      m.status ≠ MarketStatus.Locked
  resolved_answer : ∀ id m, alookup id s.markets = some m →
    m.status = MarketStatus.Resolved →
    ∃ ca, m.correct_answer = some ca ∧ ca ∈ m.options
  pool_sum : ∀ id m, alookup id s.markets = some m → sumValues m.bets = m.total_pool
  stake_sum : ∀ id m, alookup id s.markets = some m →
    ∀ o, (alookup o m.bets).getD 0 = optionStake id o s.user_bets
  bet_pos : ∀ k b, alookup k s.user_bets = some b → 0 < b.amount
  unresolved_zero : ∀ k b m, alookup k s.user_bets = some b →
    alookup k.1 s.markets = some m → m.status ≠ MarketStatus.Resolved →
    b.reward_amount = 0
  winner_pos : ∀ k b m ca, alookup k s.user_bets = some b →
    alookup k.1 s.markets = some m → m.status = MarketStatus.Resolved →
    m.correct_answer = some ca → b.option = ca → 0 < b.reward_amount

theorem stateInv_init : StateInv initState := by
  constructor
  · exact List.nodup_nil
  · exact List.nodup_nil
  · intro id m hl
    simp [initState, alookup] at hl
  · intro k b hb
    simp [initState, alookup] at hb
  · intro id m hl
    simp [initState, alookup] at hl
  · intro id m hl
    simp [initState, alookup] at hl
  · intro id m hl
    simp [initState, alookup] at hl
  · intro id m hl
    simp [initState, alookup] at hl
  · intro k b hb
    simp [initState, alookup] at hb
  · intro k b m hb
    simp [initState, alookup] at hb
  · intro k b m ca hb
    simp [initState, alookup] at hb

/-- A bet ledger key never refers to the id about to be allocated. -/
theorem bet_key_lt_next {s : PredictionMarketState} (hInv : StateInv s)
    {k : Nat × Nat} {b : Bet} (hm : (k, b) ∈ s.user_bets) :
    k.1 < s.next_market_id := by
  have hl : alookup k s.user_bets = some b := alookup_of_mem_nodup hInv.bets_nodup hm
  obtain ⟨m, hmk⟩ := hInv.bet_market k b hl
  exact hInv.id_lt k.1 m hmk

theorem alookup_next_none {s : PredictionMarketState} (hInv : StateInv s) :
    alookup s.next_market_id s.markets = none := by
  cases hl : alookup s.next_market_id s.markets with
  | none => rfl
  | some m => exact absurd (hInv.id_lt _ _ hl) (lt_irrefl _)

theorem inv_create {s s' : PredictionMarketState} {sg : Option Nat} {now : Nat}
    {q d : String} {dur : Nat} {opts : List String} {mr : Nat}
    {ev : List PredictionMarketEffect} (hInv : StateInv s)
    (h : create_market s sg now q d dur opts mr = (s', .ok ev)) : StateInv s' := by
  obtain ⟨creator, hsg, hq, hlen, hmr, hev, hs'⟩ := create_market_ok h
  subst hs'
  constructor
  · exact nodupKeys_ainsert _ _ hInv.markets_nodup
  · exact hInv.bets_nodup
  · intro id m hl
    dsimp only at hl ⊢
    by_cases hid : id = s.next_market_id
    · subst hid
      omega
    · rw [alookup_ainsert_ne _ _ hid] at hl
      have := hInv.id_lt id m hl
      omega
  · intro k b hb
    dsimp only at hb ⊢
    obtain ⟨m, hm⟩ := hInv.bet_market k b hb
    by_cases hk : k.1 = s.next_market_id
    · rw [hk]
      exact ⟨_, alookup_ainsert_self _ _ _⟩
    · rw [alookup_ainsert_ne _ _ hk]
      exact ⟨m, hm⟩
  · intro id m hl
    dsimp only at hl
    by_cases hid : id = s.next_market_id
    · subst hid
      rw [alookup_ainsert_self] at hl
      cases hl
      refine ⟨hq, hlen, hmr, ?_⟩
      intro hc
      simp at hc
    · rw [alookup_ainsert_ne _ _ hid] at hl
      exact hInv.market_ok id m hl
  · intro id m hl hst
    dsimp only at hl
    by_cases hid : id = s.next_market_id
    · subst hid
      rw [alookup_ainsert_self] at hl
      cases hl
      simp at hst
    · rw [alookup_ainsert_ne _ _ hid] at hl
      exact hInv.resolved_answer id m hl hst
  · intro id m hl
    dsimp only at hl
    by_cases hid : id = s.next_market_id
    · subst hid
      rw [alookup_ainsert_self] at hl
      cases hl
      rfl
    · rw [alookup_ainsert_ne _ _ hid] at hl
      exact hInv.pool_sum id m hl
  · intro id m hl o
    dsimp only at hl ⊢
    by_cases hid : id = s.next_market_id
    · subst hid
      have hzero : optionStake s.next_market_id o s.user_bets = 0 :=
        optionStake_eq_zero _ _ (fun k b hm => by
          have := bet_key_lt_next hInv hm
          omega)
      rw [alookup_ainsert_self] at hl
      cases hl
      simp [alookup, hzero]
    · rw [alookup_ainsert_ne _ _ hid] at hl
      exact hInv.stake_sum id m hl o
  · intro k b hb
    exact hInv.bet_pos k b hb
  · intro k b m hb hl
    dsimp only at hb hl
    have hk : k.1 ≠ s.next_market_id := by
      have := bet_key_lt_next hInv (alookup_mem hb)
      omega
    rw [alookup_ainsert_ne _ _ hk] at hl
    exact hInv.unresolved_zero k b m hb hl
  · intro k b m ca hb hl
    dsimp only at hb hl
    have hk : k.1 ≠ s.next_market_id := by
      have := bet_key_lt_next hInv (alookup_mem hb)
      omega
    rw [alookup_ainsert_ne _ _ hk] at hl
    exact hInv.winner_pos k b m ca hb hl

theorem inv_place {s s' : PredictionMarketState} {sg : Option Nat} {now mid : Nat}
    {o : String} {amt : Nat} {ev : List PredictionMarketEffect} (hInv : StateInv s)
    (h : place_bet s sg now mid o amt = (s', .ok ev)) : StateInv s' := by
  obtain ⟨user, market, hsg, hmk, hamt, hst, hend, hopt, hnone, hov1, hov2, hev, hs'⟩ :=
    place_bet_ok h
  subst hs'
  have happ : ainsert (mid, user)
      { market_id := mid, user := user, option := o, amount := amt,
        timestamp := now, claimed := false, reward_amount := 0 } s.user_bets
      = s.user_bets ++
        [((mid, user),
          { market_id := mid, user := user, option := o, amount := amt,
            timestamp := now, claimed := false, reward_amount := 0 })] :=
    ainsert_of_alookup_none _ hnone
  constructor
  · exact nodupKeys_ainsert _ _ hInv.markets_nodup
  · exact nodupKeys_ainsert _ _ hInv.bets_nodup
  · intro id m hl
    dsimp only at hl ⊢
    by_cases hid : id = mid
    · subst hid
      exact hInv.id_lt id market hmk
    · rw [alookup_ainsert_ne _ _ hid] at hl
      exact hInv.id_lt id m hl
  · intro k b hb
    dsimp only at hb ⊢
    by_cases hk : k = (mid, user)
    · subst hk
      dsimp only
      rw [alookup_ainsert_self]
      exact ⟨_, rfl⟩
    · rw [alookup_ainsert_ne _ _ hk] at hb
      obtain ⟨m, hm⟩ := hInv.bet_market k b hb
      by_cases hk1 : k.1 = mid
      · rw [hk1, alookup_ainsert_self]
        exact ⟨_, rfl⟩
      · rw [alookup_ainsert_ne _ _ hk1]
        exact ⟨m, hm⟩
  · intro id m hl
    dsimp only at hl
    by_cases hid : id = mid
    · subst hid
      rw [alookup_ainsert_self] at hl
      cases hl
      obtain ⟨h1, h2, h3, h4⟩ := hInv.market_ok id market hmk
      exact ⟨h1, h2, h3, h4⟩
    · rw [alookup_ainsert_ne _ _ hid] at hl
      exact hInv.market_ok id m hl
  · intro id m hl hres
    dsimp only at hl
    by_cases hid : id = mid
    · subst hid
      rw [alookup_ainsert_self] at hl
      cases hl
      dsimp only at hres
      rw [hst] at hres
      simp at hres
    · rw [alookup_ainsert_ne _ _ hid] at hl
      exact hInv.resolved_answer id m hl hres
  · intro id m hl
    dsimp only at hl
    by_cases hid : id = mid
    · subst hid
      rw [alookup_ainsert_self] at hl
      cases hl
      dsimp only
      have hsum := sumValues_ainsert o ((alookup o market.bets).getD 0 + amt) market.bets
      have hold := hInv.pool_sum id market hmk
      omega
    · rw [alookup_ainsert_ne _ _ hid] at hl
      exact hInv.pool_sum id m hl
  · intro id m hl o'
    dsimp only at hl ⊢
    rw [happ, optionStake_append]
    dsimp only [optionStake]
    by_cases hid : id = mid
    · subst hid
      rw [alookup_ainsert_self] at hl
      cases hl
      dsimp only
      have hold := hInv.stake_sum id market hmk
      by_cases ho' : o' = o
      · subst ho'
        rw [alookup_ainsert_self]
        rw [if_pos ⟨rfl, rfl⟩]
        have := hold o'
        dsimp only [Option.getD] at this ⊢
        omega
      · rw [alookup_ainsert_ne _ _ (fun hc => ho' hc)]
        rw [if_neg (fun hc => ho' hc.2.symm)]
        have := hold o'
        omega
    · rw [alookup_ainsert_ne _ _ hid] at hl
      rw [if_neg (fun hc => hid hc.1.symm)]
      have := hInv.stake_sum id m hl o'
      omega
  · intro k b hb
    dsimp only at hb
    by_cases hk : k = (mid, user)
    · subst hk
      rw [alookup_ainsert_self] at hb
      cases hb
      dsimp only
      omega
    · rw [alookup_ainsert_ne _ _ hk] at hb
      exact hInv.bet_pos k b hb
  · intro k b m hb hl
    dsimp only at hb hl
    by_cases hk : k = (mid, user)
    · subst hk
      rw [alookup_ainsert_self] at hb
      cases hb
      intro hres
      rfl
    · rw [alookup_ainsert_ne _ _ hk] at hb
      by_cases hk1 : k.1 = mid
      · rw [hk1, alookup_ainsert_self] at hl
        cases hl
        intro hres
        have hne : market.status ≠ MarketStatus.Resolved := by
          rw [hst]
          simp
        exact hInv.unresolved_zero k b market hb (by rw [← hk1] at hmk; exact hmk) hne
      · rw [alookup_ainsert_ne _ _ hk1] at hl
        exact hInv.unresolved_zero k b m hb hl
  · intro k b m ca hb hl hres hans hwin
    dsimp only at hb hl
    by_cases hk : k = (mid, user)
    · subst hk
      rw [alookup_ainsert_self] at hb
      cases hb
      by_cases hk1 : (mid, user).1 = mid
      · rw [hk1, alookup_ainsert_self] at hl
        cases hl
        dsimp only at hres
        rw [hst] at hres
        simp at hres
      · exact absurd rfl hk1
    · rw [alookup_ainsert_ne _ _ hk] at hb
      by_cases hk1 : k.1 = mid
      · rw [hk1, alookup_ainsert_self] at hl
        cases hl
        dsimp only at hres
        rw [hst] at hres
        simp at hres
      · rw [alookup_ainsert_ne _ _ hk1] at hl
        exact hInv.winner_pos k b m ca hb hl hres hans hwin

theorem inv_resolve {s s' : PredictionMarketState} {sg : Option Nat} {now mid : Nat}
    {ca : String} {ev : List PredictionMarketEffect} (hInv : StateInv s)
    (h : resolve_market s sg now mid ca = (s', .ok ev)) : StateInv s' := by
  obtain ⟨caller, market, hsg, hmk, hcr, hres, hend, hca, hev, hcase⟩ := resolve_market_ok h
  have hact : market.status = MarketStatus.Active := by
    have h4 := (hInv.market_ok mid market hmk).2.2.2
    cases hm : market.status with
    | Active => rfl
    | Locked => exact absurd hm h4
    | Resolved => exact absurd hm hres
  have hT : sumValues market.bets = market.total_pool := hInv.pool_sum mid market hmk
  have hWsum : (alookup ca market.bets).getD 0 ≤ market.total_pool := by
    have := alookup_getD_le_sumValues ca market.bets
    omega
  have hstake := hInv.stake_sum mid market hmk ca
  rcases hcase with ⟨hW, bets1, hass, hs'⟩ | ⟨hW0, hs'⟩
  · subst hs'
    have hmap := assignRewards_ok_eq hass
    subst hmap
    have hTpos : 0 < market.total_pool := by omega
    constructor
    · exact nodupKeys_ainsert _ _ hInv.markets_nodup
    · exact nodupKeys_map_keyfn _ hInv.bets_nodup
    · intro id m hl
      dsimp only at hl ⊢
      by_cases hid : id = mid
      · subst hid
        exact hInv.id_lt id market hmk
      · rw [alookup_ainsert_ne _ _ hid] at hl
        exact hInv.id_lt id m hl
    · intro k b hb
      dsimp only at hb ⊢
      rw [alookup_map_keyfn] at hb
      cases ho : alookup k s.user_bets with
      | none => rw [ho] at hb; simp at hb
      | some b0 =>
        obtain ⟨m, hm⟩ := hInv.bet_market k b0 ho
        by_cases hk1 : k.1 = mid
        · rw [hk1, alookup_ainsert_self]
          exact ⟨_, rfl⟩
        · rw [alookup_ainsert_ne _ _ hk1]
          exact ⟨m, hm⟩
    · intro id m hl
      dsimp only at hl
      by_cases hid : id = mid
      · subst hid
        rw [alookup_ainsert_self] at hl
        cases hl
        obtain ⟨h1, h2, h3, _⟩ := hInv.market_ok id market hmk
        refine ⟨h1, h2, h3, ?_⟩
        intro hc
        simp at hc
      · rw [alookup_ainsert_ne _ _ hid] at hl
        exact hInv.market_ok id m hl
    · intro id m hl hmres
      dsimp only at hl
      by_cases hid : id = mid
      · subst hid
        rw [alookup_ainsert_self] at hl
        cases hl
        exact ⟨ca, rfl, hca⟩
      · rw [alookup_ainsert_ne _ _ hid] at hl
        exact hInv.resolved_answer id m hl hmres
    · intro id m hl
      dsimp only at hl
      by_cases hid : id = mid
      · subst hid
        rw [alookup_ainsert_self] at hl
        cases hl
        exact hT
      · rw [alookup_ainsert_ne _ _ hid] at hl
        exact hInv.pool_sum id m hl
    · intro id m hl o'
      dsimp only at hl ⊢
      rw [optionStake_map_rewardOf]
      by_cases hid : id = mid
      · subst hid
        rw [alookup_ainsert_self] at hl
        cases hl
        exact hInv.stake_sum id market hmk o'
      · rw [alookup_ainsert_ne _ _ hid] at hl
        exact hInv.stake_sum id m hl o'
    · intro k b hb
      dsimp only at hb
      rw [alookup_map_keyfn] at hb
      cases ho : alookup k s.user_bets with
      | none => rw [ho] at hb; simp at hb
      | some b0 =>
        rw [ho] at hb
        have hb' : rewardOf mid ca market.total_pool ((alookup ca market.bets).getD 0)
            market.max_reward k b0 = b := by simpa using hb
        rw [← hb', rewardOf_amount]
        exact hInv.bet_pos k b0 ho
    · intro k b m hb hl hmres
      dsimp only at hb hl
      rw [alookup_map_keyfn] at hb
      cases ho : alookup k s.user_bets with
      | none => rw [ho] at hb; simp at hb
      | some b0 =>
        rw [ho] at hb
        have hb' : rewardOf mid ca market.total_pool ((alookup ca market.bets).getD 0)
            market.max_reward k b0 = b := by simpa using hb
        by_cases hk1 : k.1 = mid
        · rw [hk1, alookup_ainsert_self] at hl
          cases hl
          exact absurd rfl hmres
        · rw [alookup_ainsert_ne _ _ hk1] at hl
          rw [rewardOf_of_ne _ _ _ _ _ _ _ (fun hc => hk1 hc.1)] at hb'
          rw [← hb']
          exact hInv.unresolved_zero k b0 m ho hl hmres
    · intro k b m ca0 hb hl hmres hans hwin
      dsimp only at hb hl
      rw [alookup_map_keyfn] at hb
      cases ho : alookup k s.user_bets with
      | none => rw [ho] at hb; simp at hb
      | some b0 =>
        rw [ho] at hb
        have hb' : rewardOf mid ca market.total_pool ((alookup ca market.bets).getD 0)
            market.max_reward k b0 = b := by simpa using hb
        by_cases hk1 : k.1 = mid
        · rw [hk1, alookup_ainsert_self] at hl
          cases hl
          dsimp only at hans
          have hca0 : ca0 = ca := by
            cases hans
            rfl
          subst hca0
          by_cases hbo : b0.option = ca0
          · rw [rewardOf_of_eq _ _ _ _ _ _ _ ⟨hk1, hbo⟩] at hb'
            rw [← hb']
            dsimp only
            rw [if_pos (show 0 < market.total_pool ∧
                0 < (alookup ca0 market.bets).getD 0 from ⟨hTpos, hW⟩)]
            have ha : 0 < b0.amount := hInv.bet_pos k b0 ho
            have haW : b0.amount ≤ (alookup ca0 market.bets).getD 0 := by
              rw [hstake]
              exact amount_le_optionStake (alookup_mem ho) hk1 hbo
            have hreward : b0.amount ≤
                b0.amount * market.total_pool / (alookup ca0 market.bets).getD 0 := by
              rw [Nat.le_div_iff_mul_le hW]
              exact Nat.mul_le_mul_left _ hWsum
            by_cases hmr : market.max_reward <
                b0.amount * market.total_pool / (alookup ca0 market.bets).getD 0
            · rw [if_pos hmr]
              exact (hInv.market_ok mid market hmk).2.2.1
            · rw [if_neg hmr]
              omega
          · rw [rewardOf_of_ne _ _ _ _ _ _ _ (fun hc => hbo hc.2)] at hb'
            rw [← hb'] at hwin
            exact absurd hwin hbo
        · rw [alookup_ainsert_ne _ _ hk1] at hl
          rw [rewardOf_of_ne _ _ _ _ _ _ _ (fun hc => hk1 hc.1)] at hb'
          rw [← hb'] at hwin ⊢
          exact hInv.winner_pos k b0 m ca0 ho hl hmres hans hwin
  · subst hs'
    constructor
    · exact nodupKeys_ainsert _ _ hInv.markets_nodup
    · exact hInv.bets_nodup
    · intro id m hl
      dsimp only at hl ⊢
      by_cases hid : id = mid
      · subst hid
        exact hInv.id_lt id market hmk
      · rw [alookup_ainsert_ne _ _ hid] at hl
        exact hInv.id_lt id m hl
    · intro k b hb
      dsimp only at hb ⊢
      obtain ⟨m, hm⟩ := hInv.bet_market k b hb
      by_cases hk1 : k.1 = mid
      · rw [hk1, alookup_ainsert_self]
        exact ⟨_, rfl⟩
      · rw [alookup_ainsert_ne _ _ hk1]
        exact ⟨m, hm⟩
    · intro id m hl
      dsimp only at hl
      by_cases hid : id = mid
      · subst hid
        rw [alookup_ainsert_self] at hl
        cases hl
        obtain ⟨h1, h2, h3, _⟩ := hInv.market_ok id market hmk
        refine ⟨h1, h2, h3, ?_⟩
        intro hc
        simp at hc
      · rw [alookup_ainsert_ne _ _ hid] at hl
        exact hInv.market_ok id m hl
    · intro id m hl hmres
      dsimp only at hl
      by_cases hid : id = mid
      · subst hid
        rw [alookup_ainsert_self] at hl
        cases hl
        exact ⟨ca, rfl, hca⟩
      · rw [alookup_ainsert_ne _ _ hid] at hl
        exact hInv.resolved_answer id m hl hmres
    · intro id m hl
      dsimp only at hl
      by_cases hid : id = mid
      · subst hid
        rw [alookup_ainsert_self] at hl
        cases hl
        exact hT
      · rw [alookup_ainsert_ne _ _ hid] at hl
        exact hInv.pool_sum id m hl
    · intro id m hl o'
      dsimp only at hl ⊢
      by_cases hid : id = mid
      · subst hid
        rw [alookup_ainsert_self] at hl
        cases hl
        exact hInv.stake_sum id market hmk o'
      · rw [alookup_ainsert_ne _ _ hid] at hl
        exact hInv.stake_sum id m hl o'
    · exact hInv.bet_pos
    · intro k b m hb hl hmres
      dsimp only at hb hl
      by_cases hk1 : k.1 = mid
      · rw [hk1, alookup_ainsert_self] at hl
        cases hl
        exact absurd rfl hmres
      · rw [alookup_ainsert_ne _ _ hk1] at hl
        exact hInv.unresolved_zero k b m hb hl hmres
    · intro k b m ca0 hb hl hmres hans hwin
      dsimp only at hb hl
      by_cases hk1 : k.1 = mid
      · rw [hk1, alookup_ainsert_self] at hl
        cases hl
        dsimp only at hans
        have hca0 : ca0 = ca := by
          cases hans
          rfl
        subst hca0
        have ha : 0 < b.amount := hInv.bet_pos k b hb
        have haW : b.amount ≤ (alookup ca0 market.bets).getD 0 := by
          rw [hstake]
          exact amount_le_optionStake (alookup_mem hb) hk1 hwin
        omega
      · rw [alookup_ainsert_ne _ _ hk1] at hl
        exact hInv.winner_pos k b m ca0 hb hl hmres hans hwin

theorem inv_claim {s s' : PredictionMarketState} {sg : Option Nat} {mid : Nat}
    {ev : List PredictionMarketEffect} (hInv : StateInv s)
    (h : claim_reward s sg mid = (s', .ok ev)) : StateInv s' := by
  obtain ⟨user, market, bet, ca, hsg, hmk, hres, hbet, hans, hwin, hcl, hz, hev, hs'⟩ :=
    claim_reward_ok h
  subst hs'
  constructor
  · exact hInv.markets_nodup
  · exact nodupKeys_ainsert _ _ hInv.bets_nodup
  · exact hInv.id_lt
  · intro k b hb
    dsimp only at hb ⊢
    by_cases hk : k = (mid, user)
    · subst hk
      exact ⟨market, hmk⟩
    · rw [alookup_ainsert_ne _ _ hk] at hb
      exact hInv.bet_market k b hb
  · exact hInv.market_ok
  · exact hInv.resolved_answer
  · exact hInv.pool_sum
  · intro id m hl o
    dsimp only
    rw [optionStake_ainsert_same id o bet { bet with claimed := true } hbet rfl rfl]
    exact hInv.stake_sum id m hl o
  · intro k b hb
    dsimp only at hb
    by_cases hk : k = (mid, user)
    · subst hk
      rw [alookup_ainsert_self] at hb
      cases hb
      exact hInv.bet_pos _ bet hbet
    · rw [alookup_ainsert_ne _ _ hk] at hb
      exact hInv.bet_pos k b hb
  · intro k b m hb hl hmres
    dsimp only at hb
    by_cases hk : k = (mid, user)
    · subst hk
      dsimp only at hl
      rw [hmk] at hl
      cases hl
      exact absurd hres hmres
    · rw [alookup_ainsert_ne _ _ hk] at hb
      exact hInv.unresolved_zero k b m hb hl hmres
  · intro k b m ca0 hb hl hmres hans0 hwin0
    dsimp only at hb
    by_cases hk : k = (mid, user)
    · subst hk
      rw [alookup_ainsert_self] at hb
      cases hb
      dsimp only
      have := hInv.winner_pos (mid, user) bet m ca0 hbet hl hmres hans0 hwin0
      exact this
    · rw [alookup_ainsert_ne _ _ hk] at hb
      exact hInv.winner_pos k b m ca0 hb hl hmres hans0 hwin0

/-- Every reachable state satisfies the invariant. -/
theorem reachable_inv {s : PredictionMarketState} (h : Reachable s) : StateInv s := by
  induction h with
  | init => exact stateInv_init
  | step s a hs hok ih =>
    obtain ⟨ev, hev⟩ : ∃ ev, (applyAction s a).2 = .ok ev := by
      cases hr : (applyAction s a).2 with
      | error e => rw [hr] at hok; exact Bool.noConfusion hok
      | ok ev => exact ⟨ev, rfl⟩
    have happ : applyAction s a = ((applyAction s a).1, .ok ev) := by
      rw [← hev]
    cases a with
    | createMarket sg now q d dur opts mr => exact inv_create ih happ
    | placeBet sg now mid o amt => exact inv_place ih happ
    | resolveMarket sg now mid ca => exact inv_resolve ih happ
    | claimReward sg mid => exact inv_claim ih happ

/-! ## Concrete executions used as witnesses -/

deriving instance DecidableEq for Except

/-- One market: creator 1, question "Q", 1-minute duration, max reward 1000. -/
def demoS1 : PredictionMarketState :=
  (applyAction initState
    (.createMarket (some 1) 0 "Q" "d" 1 ["Yes", "No"] 1000)).1

/-- User 2 stakes 100 on "Yes". -/
def demoS2 : PredictionMarketState :=
  (applyAction demoS1 (.placeBet (some 2) 0 1 "Yes" 100)).1

/-- User 3 stakes 300 on "No". -/
def demoS3 : PredictionMarketState :=
  (applyAction demoS2 (.placeBet (some 3) 0 1 "No" 300)).1

/-- The creator resolves market 1 with answer "Yes" at its end time. -/
def demoS4 : PredictionMarketState :=
  (applyAction demoS3 (.resolveMarket (some 1) 60000 1 "Yes")).1

/-- User 2 claims the reward. -/
def demoS5 : PredictionMarketState :=
  (applyAction demoS4 (.claimReward (some 2) 1)).1

theorem demoS1_reach : Reachable demoS1 :=
  Reachable.step initState _ Reachable.init (by decide)

theorem demoS2_reach : Reachable demoS2 :=
  Reachable.step demoS1 _ demoS1_reach (by decide)

theorem demoS3_reach : Reachable demoS3 :=
  Reachable.step demoS2 _ demoS2_reach (by decide)

theorem demoS4_reach : Reachable demoS4 :=
  Reachable.step demoS3 _ demoS3_reach (by decide)

/-- Market 1 as stored in `demoS2`. -/
def demoMarket2 : Market :=
  { id := 1, creator := 1, question := "Q", description := "d", end_time := 60000,
    status := .Active, options := ["Yes", "No"], correct_answer := none,
    bets := [("Yes", 100)], total_pool := 100, max_reward := 1000, created_at := 0 }

/-- Market 1 as stored in `demoS3`. -/
def demoMarket3 : Market :=
  { id := 1, creator := 1, question := "Q", description := "d", end_time := 60000,
    status := .Active, options := ["Yes", "No"], correct_answer := none,
    bets := [("Yes", 100), ("No", 300)], total_pool := 400, max_reward := 1000,
    created_at := 0 }

/-- Market 1 as stored in `demoS4` (resolved). -/
def demoMarket4 : Market :=
  { id := 1, creator := 1, question := "Q", description := "d", end_time := 60000,
    status := .Resolved, options := ["Yes", "No"], correct_answer := some "Yes",
    bets := [("Yes", 100), ("No", 300)], total_pool := 400, max_reward := 1000,
    created_at := 0 }

/-- User 2's bet as stored in `demoS4`: reward 100 * 400 / 100 = 400. -/
def demoBet4 : Bet :=
  { market_id := 1, user := 2, option := "Yes", amount := 100, timestamp := 0,
    claimed := false, reward_amount := 400 }

/-- Overflow scenario: max reward 1, then one stake of 2 ^ 127 on "Yes". -/
def overS1 : PredictionMarketState :=
  (applyAction initState
    (.createMarket (some 1) 0 "Q" "d" 1 ["Yes", "No"] 1)).1

def overS2 : PredictionMarketState :=
  (applyAction overS1 (.placeBet (some 2) 0 1 "Yes" (2 ^ 127))).1

theorem overS1_reach : Reachable overS1 :=
  Reachable.step initState _ Reachable.init (by decide)

theorem overS2_reach : Reachable overS2 :=
  Reachable.step overS1 _ overS1_reach (by decide)

/-! ## Claim theorems -/

/-- C2: in every state reachable by successful operations, the per-option
totals of every market sum exactly to its `total_pool` (PlaceBet adds the
stake to both sides and no other operation changes either). -/
theorem C2_pool_conservation {s : PredictionMarketState} (hs : Reachable s) :
    ∀ id m, alookup id s.markets = some m → sumValues m.bets = m.total_pool :=
  (reachable_inv hs).pool_sum

theorem C2_pool_conservation_witness :
    sumValues demoMarket3.bets = demoMarket3.total_pool :=
  C2_pool_conservation demoS3_reach 1 demoMarket3 (by decide)

/-- C3: the claim fails on the code.  `resolve_market` multiplies
`bet.amount * total_pool` in the 128-bit amount type.  In the reachable
state `overS2` (one bet of 2 ^ 127 on "Yes", so `total_pool` =
`winning_pool` = 2 ^ 127) the product is 2 ^ 254, which exceeds the
amount type's range, so resolution aborts with an overflow panic instead
of computing the exact reward `min(max_reward, 2 ^ 127) = 1`. -/
theorem C3_overflow_failing_input :
    Reachable overS2
    ∧ resolve_market overS2 (some 1) 60000 1 "Yes" =
        (overS2, .error "panic: Amount overflow")
    ∧ min 1 (2 ^ 127 * 2 ^ 127 / 2 ^ 127) = 1
    ∧ AMOUNT_MAX ≤ 2 ^ 127 * 2 ^ 127 :=
  ⟨overS2_reach, by decide, by decide, by decide⟩

/-- C4: every operation is atomic — whenever the dispatcher returns an
error, the stored state is exactly the pre-call state. -/
theorem C4_atomic_on_error (s : PredictionMarketState) (a : ContractAction)
    (s1 : PredictionMarketState) (e : String)
    (h : applyAction s a = (s1, .error e)) : s1 = s :=
  applyAction_err h

theorem C4_atomic_on_error_witness :
    (applyAction initState (.placeBet (some 1) 0 1 "Yes" 5)).1 = initState :=
  C4_atomic_on_error initState (.placeBet (some 1) 0 1 "Yes" 5)
    (applyAction initState (.placeBet (some 1) 0 1 "Yes" 5)).1
    "Market 1 not found" (by decide)

/-- C5: at most one bet per (market, bettor) key: the ledger keys are
duplicate-free in every reachable state, and while a bet for
`(market_id, caller)` is stored, a second `place_bet` by the same caller
fails without touching the state; when all earlier validations pass it
fails precisely with the duplicate-bet error. -/
theorem C5_duplicate_bet {s : PredictionMarketState} (hs : Reachable s) :
    NodupKeys s.user_bets ∧
    ∀ user now mid o amt, containsKeyA (mid, user) s.user_bets = true →
      (place_bet s (some user) now mid o amt).1 = s ∧
      (place_bet s (some user) now mid o amt).2.isOk = false ∧
      (∀ m, amt ≠ 0 → alookup mid s.markets = some m →
        m.status = MarketStatus.Active → now < m.end_time → o ∈ m.options →
        place_bet s (some user) now mid o amt =
          (s, .error "User already placed a bet on this market")) := by
  refine ⟨(reachable_inv hs).bets_nodup, ?_⟩
  intro user now mid o amt hdup
  have hfail : ∀ ev, place_bet s (some user) now mid o amt ≠
      ((place_bet s (some user) now mid o amt).1, .ok ev) := by
    intro ev hok
    obtain ⟨u, m, hsg, hmk, hamt, hst, hend, hopt, hnone, _⟩ := place_bet_ok hok
    have hu : u = user := by
      cases hsg
      rfl
    rw [hu] at hnone
    rw [containsKeyA, hnone] at hdup
    simp at hdup
  have heta : place_bet s (some user) now mid o amt =
      ((place_bet s (some user) now mid o amt).1,
       (place_bet s (some user) now mid o amt).2) := rfl
  refine ⟨?_, ?_, ?_⟩
  · cases hres : (place_bet s (some user) now mid o amt).2 with
    | error e =>
      have : place_bet s (some user) now mid o amt =
          ((place_bet s (some user) now mid o amt).1, .error e) := by
        rw [heta, hres]
      exact applyAction_err (a := .placeBet (some user) now mid o amt) this
    | ok ev =>
      exact absurd (by rw [heta, hres]) (hfail ev)
  · cases hres : (place_bet s (some user) now mid o amt).2 with
    | error e => rfl
    | ok ev => exact absurd (by rw [heta, hres]) (hfail ev)
  · intro m hamt hmk hst hend hopt
    unfold place_bet
    rw [if_neg hamt]
    simp only [hmk]
    rw [if_neg (show ¬ m.status ≠ MarketStatus.Active from fun hc => hc hst)]
    rw [if_neg (Nat.not_le.mpr hend)]
    rw [if_neg (show ¬ ¬ o ∈ m.options from fun hc => hc hopt)]
    rw [if_pos hdup]

theorem C5_duplicate_bet_witness :
    (place_bet demoS2 (some 2) 0 1 "Yes" 50).1 = demoS2 ∧
    (place_bet demoS2 (some 2) 0 1 "Yes" 50).2.isOk = false ∧
    place_bet demoS2 (some 2) 0 1 "Yes" 50 =
      (demoS2, .error "User already placed a bet on this market") := by
  obtain ⟨h1, h2, h3⟩ :=
    (C5_duplicate_bet demoS2_reach).2 2 0 1 "Yes" 50 (by decide)
  exact ⟨h1, h2, h3 demoMarket2 (by decide) (by decide) (by decide) (by decide) (by decide)⟩

/-- C6: the stored status is never `Locked`; the only status change any
successful action makes is Active → Resolved, performed by
`resolve_market` called by the creator with `now ≥ end_time`; a second
resolution by the creator fails with the already-resolved error; a
successful `place_bet` requires status Active and `now < end_time`; and
`place_bet` at `now ≥ end_time` fails with the market-ended error even
though the status field still reads Active. -/
theorem C6_status_lifecycle {s : PredictionMarketState} (hs : Reachable s) :
    (∀ id m, alookup id s.markets = some m → m.status ≠ MarketStatus.Locked)
    ∧ (∀ a s1 ev, applyAction s a = (s1, .ok ev) →
        ∀ id m m1, alookup id s.markets = some m → alookup id s1.markets = some m1 →
          m1.status = m.status ∨
            (m.status = MarketStatus.Active ∧ m1.status = MarketStatus.Resolved ∧
             ∃ now ca, a = ContractAction.resolveMarket (some m.creator) now id ca ∧
               m.end_time ≤ now))
    ∧ (∀ now mid ca m, alookup mid s.markets = some m →
        m.status = MarketStatus.Resolved →
        resolve_market s (some m.creator) now mid ca =
          (s, .error "Market already resolved"))
    ∧ (∀ sg now mid o amt s1 ev, place_bet s sg now mid o amt = (s1, .ok ev) →
        ∀ m, alookup mid s.markets = some m →
          m.status = MarketStatus.Active ∧ now < m.end_time)
    ∧ (∀ user now mid o amt m, alookup mid s.markets = some m →
        m.status = MarketStatus.Active → m.end_time ≤ now → amt ≠ 0 →
        place_bet s (some user) now mid o amt = (s, .error "Market has ended")) := by
  have hInv := reachable_inv hs
  refine ⟨?_, ?_, ?_, ?_, ?_⟩
  · intro id m hm
    exact (hInv.market_ok id m hm).2.2.2
  · intro a s1 ev hok id m m1 hm hm1
    cases a with
    | createMarket sg now q d dur opts mr =>
      obtain ⟨creator, hsg, hq, hlen, hmr, hev, hs1⟩ := create_market_ok hok
      subst hs1
      dsimp only at hm1
      by_cases hid : id = s.next_market_id
      · subst hid
        rw [alookup_next_none hInv] at hm
        exact absurd hm (by simp)
      · rw [alookup_ainsert_ne _ _ hid] at hm1
        rw [hm] at hm1
        cases hm1
        exact Or.inl rfl
    | placeBet sg now mid o amt =>
      obtain ⟨user, market, hsg, hmk, hamt, hst, hend, hopt, hnone, hov1, hov2, hev, hs1⟩ :=
        place_bet_ok hok
      subst hs1
      dsimp only at hm1
      by_cases hid : id = mid
      · subst hid
        rw [alookup_ainsert_self] at hm1
        cases hm1
        rw [hm] at hmk
        cases hmk
        exact Or.inl rfl
      · rw [alookup_ainsert_ne _ _ hid] at hm1
        rw [hm] at hm1
        cases hm1
        exact Or.inl rfl
    | resolveMarket sg now mid ca =>
      obtain ⟨caller, market, hsg, hmk, hcr, hres, hend, hca, hev, hcase⟩ :=
        resolve_market_ok hok
      have hact : market.status = MarketStatus.Active := by
        have h4 := (hInv.market_ok mid market hmk).2.2.2
        cases hx : market.status with
        | Active => rfl
        | Locked => exact absurd hx h4
        | Resolved => exact absurd hx hres
      have hmarkets : s1.markets = ainsert mid
          { market with status := MarketStatus.Resolved, correct_answer := some ca }
          s.markets := by
        rcases hcase with ⟨hW, bets1, hass, hs1⟩ | ⟨hW0, hs1⟩ <;> subst hs1 <;> rfl
      rw [hmarkets] at hm1
      by_cases hid : id = mid
      · subst hid
        rw [alookup_ainsert_self] at hm1
        cases hm1
        rw [hm] at hmk
        cases hmk
        refine Or.inr ⟨hact, rfl, now, ca, ?_, hend⟩
        rw [hsg, hcr]
      · rw [alookup_ainsert_ne _ _ hid] at hm1
        rw [hm] at hm1
        cases hm1
        exact Or.inl rfl
    | claimReward sg mid =>
      obtain ⟨user, market, bet, ca, hsg, hmk, hres, hbet, hans, hwin, hcl, hz, hev, hs1⟩ :=
        claim_reward_ok hok
      subst hs1
      dsimp only at hm1
      rw [hm] at hm1
      cases hm1
      exact Or.inl rfl
  · intro now mid ca m hm hres
    unfold resolve_market
    simp only [hm]
    rw [if_neg (show ¬ m.creator ≠ m.creator from fun hc => hc rfl)]
    rw [if_pos hres]
  · intro sg now mid o amt s1 ev hok m hm
    obtain ⟨user, market, hsg, hmk, hamt, hst, hend, hopt, _⟩ := place_bet_ok hok
    rw [hm] at hmk
    cases hmk
    exact ⟨hst, hend⟩
  · intro user now mid o amt m hm hst hend hamt
    unfold place_bet
    rw [if_neg hamt]
    simp only [hm]
    rw [if_neg (show ¬ m.status ≠ MarketStatus.Active from fun hc => hc hst)]
    rw [if_pos hend]

theorem C6_status_lifecycle_witness :
    resolve_market demoS4 (some demoMarket4.creator) 70000 1 "No" =
      (demoS4, .error "Market already resolved") :=
  (C6_status_lifecycle demoS4_reach).2.2.1 70000 1 "No" demoMarket4
    (by decide) (by decide)

/-- C7: after a successful claim, a second claim of the same bet fails
with the already-claimed error; a successful claim flips only the bet's
`claimed` flag (markets, counter and every other ledger entry are
untouched, and `reward_amount` is unchanged), and the emitted event
carries exactly the stored `reward_amount`. -/
theorem C7_claim_idempotent {s s1 : PredictionMarketState} {user mid : Nat}
    {bet : Bet} {ev : List PredictionMarketEffect}
    (hb : alookup (mid, user) s.user_bets = some bet)
    (hok : claim_reward s (some user) mid = (s1, .ok ev)) :
    claim_reward s1 (some user) mid = (s1, .error "Reward already claimed")
    ∧ s1.markets = s.markets
    ∧ s1.next_market_id = s.next_market_id
    ∧ alookup (mid, user) s1.user_bets = some { bet with claimed := true }
    ∧ (∀ k, k ≠ (mid, user) → alookup k s1.user_bets = alookup k s.user_bets)
    ∧ ev = [.RewardClaimed mid user bet.reward_amount] := by
  obtain ⟨u, market, bet0, ca, hsg, hmk, hres, hbet0, hans, hwin, hcl, hz, hev, hs1⟩ :=
    claim_reward_ok hok
  have hu : u = user := by
    cases hsg
    rfl
  subst hu
  rw [hb] at hbet0
  cases hbet0
  subst hs1
  refine ⟨?_, rfl, rfl, alookup_ainsert_self _ _ _, ?_, hev⟩
  · unfold claim_reward
    dsimp only
    simp only [hmk]
    rw [if_neg (show ¬ market.status ≠ MarketStatus.Resolved from fun hc => hc hres)]
    rw [alookup_ainsert_self]
    simp only [hans]
    rw [if_neg (show ¬ ({ bet with claimed := true } : Bet).option ≠ ca from
      fun hc => hc hwin)]
    simp
  · intro k hk
    exact alookup_ainsert_ne _ _ hk

theorem C7_claim_idempotent_witness :
    claim_reward demoS5 (some 2) 1 = (demoS5, .error "Reward already claimed")
    ∧ demoS5.markets = demoS4.markets
    ∧ demoS5.next_market_id = demoS4.next_market_id
    ∧ alookup (1, 2) demoS5.user_bets = some { demoBet4 with claimed := true }
    ∧ (∀ k, k ≠ (1, 2) → alookup k demoS5.user_bets = alookup k demoS4.user_bets)
    ∧ [PredictionMarketEffect.RewardClaimed 1 2 400] =
        [.RewardClaimed 1 2 demoBet4.reward_amount] :=
  C7_claim_idempotent (by decide) (by decide)

/-- The market-not-found message (which embeds the market id) differs from
any message that does not start with the letter M. -/
theorem market_msg_ne (mid : Nat) (msg : String)
    (h : msg.data.head? ≠ some 'M') :
    ("Market " ++ toString mid ++ " not found") ≠ msg := by
  intro hc
  apply h
  rw [← hc]
  rfl

/-- C8: every resolved market stores `correct_answer = Some` member of its
options, so the unwrap inside `claim_reward` (performed after the
resolved-status check) can never hit `None`: the panic outcome is
unreachable from any reachable state. -/
theorem C8_resolved_answer_total {s : PredictionMarketState} (hs : Reachable s) :
    (∀ id m, alookup id s.markets = some m → m.status = MarketStatus.Resolved →
      ∃ ca, m.correct_answer = some ca ∧ ca ∈ m.options)
    ∧ ∀ sg mid, (claim_reward s sg mid).2 ≠
        Except.error "panic: called Option::unwrap on a None value" := by
  have hInv := reachable_inv hs
  refine ⟨hInv.resolved_answer, ?_⟩
  intro sg mid
  unfold claim_reward
  cases sg with
  | none =>
    dsimp only
    decide
  | some user =>
    cases hmk : alookup mid s.markets with
    | none =>
      dsimp only
      intro hc
      exact market_msg_ne mid _ (by decide) (Except.error.inj hc)
    | some market =>
      dsimp only
      by_cases hres : market.status ≠ MarketStatus.Resolved
      · rw [if_pos hres]
        dsimp only
        decide
      · rw [if_neg hres]
        have hres2 : market.status = MarketStatus.Resolved := not_not.mp hres
        cases hbet : alookup (mid, user) s.user_bets with
        | none =>
          dsimp only
          decide
        | some bet =>
          dsimp only
          obtain ⟨ca, hca, hmem⟩ := hInv.resolved_answer mid market hmk hres2
          rw [hca]
          dsimp only
          by_cases hwin : bet.option ≠ ca
          · rw [if_pos hwin]
            dsimp only
            decide
          · rw [if_neg hwin]
            by_cases hcl : bet.claimed = true
            · rw [if_pos hcl]
              dsimp only
              decide
            · rw [if_neg hcl]
              by_cases hz : bet.reward_amount = 0
              · rw [if_pos hz]
                dsimp only
                decide
              · rw [if_neg hz]
                dsimp only
                simp

theorem C8_resolved_answer_total_witness :
    (claim_reward demoS4 (some 3) 1).2 ≠
      Except.error "panic: called Option::unwrap on a None value" :=
  (C8_resolved_answer_total demoS4_reach).2 (some 3) 1

/-- C10: the no-reward branch of `claim_reward` is unreachable: in every
reachable state a bet that passes the earlier checks (market resolved, bet
exists, option equals the stored answer) has a positive `reward_amount`,
because the winner's own stake made `winning_pool` positive at resolution,
so the claim call can never return the no-reward error. -/
theorem C10_nothing_to_claim_unreachable {s : PredictionMarketState}
    (hs : Reachable s) :
    ∀ sg mid, (claim_reward s sg mid).2 ≠ Except.error "No reward available" := by
  have hInv := reachable_inv hs
  intro sg mid
  unfold claim_reward
  cases sg with
  | none =>
    dsimp only
    decide
  | some user =>
    cases hmk : alookup mid s.markets with
    | none =>
      dsimp only
      intro hc
      exact market_msg_ne mid _ (by decide) (Except.error.inj hc)
    | some market =>
      dsimp only
      by_cases hres : market.status ≠ MarketStatus.Resolved
      · rw [if_pos hres]
        dsimp only
        decide
      · rw [if_neg hres]
        have hres2 : market.status = MarketStatus.Resolved := not_not.mp hres
        cases hbet : alookup (mid, user) s.user_bets with
        | none =>
          dsimp only
          decide
        | some bet =>
          dsimp only
          obtain ⟨ca, hca, hmem⟩ := hInv.resolved_answer mid market hmk hres2
          rw [hca]
          dsimp only
          by_cases hwin : bet.option ≠ ca
          · rw [if_pos hwin]
            dsimp only
            decide
          · rw [if_neg hwin]
            have hwin2 : bet.option = ca := not_not.mp hwin
            by_cases hcl : bet.claimed = true
            · rw [if_pos hcl]
              dsimp only
              decide
            · rw [if_neg hcl]
              have hpos : 0 < bet.reward_amount :=
                hInv.winner_pos (mid, user) bet market ca hbet hmk hres2 hca hwin2
              rw [if_neg (by omega)]
              dsimp only
              simp

theorem C10_nothing_to_claim_unreachable_witness :
    (claim_reward demoS4 (some 2) 1).2 ≠ Except.error "No reward available" :=
  C10_nothing_to_claim_unreachable demoS4_reach (some 2) 1

/-- C9 counterexample: `create_market` succeeds on the duplicate option
list ["Yes", "Yes"] and stores it unchanged, although the list is not
pairwise distinct — the distinctness precondition in the claim is not
checked by the code. -/
theorem C9_duplicate_options_accepted :
    (create_market initState (some 1) 0 "Q" "d" 240 ["Yes", "Yes"] 10).2.isOk = true
    ∧ Option.map Market.options
        (alookup 1 (create_market initState (some 1) 0 "Q" "d" 240
          ["Yes", "Yes"] 10).1.markets) = some ["Yes", "Yes"]
    ∧ ¬ (["Yes", "Yes"] : List String).Nodup :=
  ⟨by decide, by decide, by decide⟩

/-- C9 (amended): every market stored by a successful `create_market` has
a non-empty question, at least 2 options and `max_reward > 0` (duplicate
option labels are accepted — distinctness is not validated), and
`create_market` fails, storing nothing, whenever the question is empty,
fewer than 2 options are given, or `max_reward = 0`. -/
theorem C9_create_validation (s s1 : PredictionMarketState) (sg : Option Nat)
    (now : Nat) (q d : String) (dur : Nat) (opts : List String) (mr : Nat)
    (ev : List PredictionMarketEffect) :
    (create_market s sg now q d dur opts mr = (s1, .ok ev) →
      ∀ m, alookup s.next_market_id s1.markets = some m →
        ¬ m.question.isEmpty ∧ 2 ≤ m.options.length ∧ 0 < m.max_reward ∧
        m.question = q ∧ m.options = opts ∧ m.max_reward = mr ∧
        m.status = MarketStatus.Active ∧ m.correct_answer = none ∧
        m.bets = [] ∧ m.total_pool = 0)
    ∧ ((q.isEmpty ∨ opts.length < 2 ∨ mr = 0) →
        (create_market s sg now q d dur opts mr).1 = s ∧
        (create_market s sg now q d dur opts mr).2.isOk = false) := by
  constructor
  · intro hok m hm
    obtain ⟨creator, hsg, hq, hlen, hmr, hev, hs1⟩ := create_market_ok hok
    subst hs1
    dsimp only at hm
    rw [alookup_ainsert_self] at hm
    cases hm
    exact ⟨hq, hlen, hmr, rfl, rfl, rfl, rfl, rfl, rfl, rfl⟩
  · intro hbad
    unfold create_market
    by_cases h1 : q.isEmpty
    · rw [if_pos h1]
      exact ⟨rfl, rfl⟩
    · rw [if_neg h1]
      by_cases h2 : opts.length < 2
      · rw [if_pos h2]
        exact ⟨rfl, rfl⟩
      · rw [if_neg h2]
        have h3 : mr = 0 := by
          rcases hbad with hb | hb | hb
          · exact absurd hb h1
          · exact absurd hb h2
          · exact hb
        rw [if_pos h3]
        exact ⟨rfl, rfl⟩

/-- The market stored by `create_market initState (some 1) 0 "Q" "d" 1
["A", "B"] 10`. -/
def demoMarketA : Market :=
  { id := 1, creator := 1, question := "Q", description := "d", end_time := 60000,
    status := .Active, options := ["A", "B"], correct_answer := none,
    bets := [], total_pool := 0, max_reward := 10, created_at := 0 }

theorem C9_create_validation_witness :
    (¬ demoMarketA.question.isEmpty ∧ 2 ≤ demoMarketA.options.length ∧
      0 < demoMarketA.max_reward ∧ demoMarketA.question = "Q" ∧
      demoMarketA.options = ["A", "B"] ∧ demoMarketA.max_reward = 10 ∧
      demoMarketA.status = MarketStatus.Active ∧
      demoMarketA.correct_answer = none ∧ demoMarketA.bets = [] ∧
      demoMarketA.total_pool = 0)
    ∧ (create_market initState (some 1) 0 "" "d" 1 ["A", "B"] 10).1 = initState
    ∧ (create_market initState (some 1) 0 "" "d" 1 ["A", "B"] 10).2.isOk = false := by
  refine ⟨?_, ?_, ?_⟩
  · exact (C9_create_validation initState
      (create_market initState (some 1) 0 "Q" "d" 1 ["A", "B"] 10).1 (some 1)
      0 "Q" "d" 1 ["A", "B"] 10 [.MarketCreated 1 1]).1 (by decide)
      demoMarketA (by decide)
  · exact ((C9_create_validation initState
      (create_market initState (some 1) 0 "" "d" 1 ["A", "B"] 10).1 (some 1)
      0 "" "d" 1 ["A", "B"] 10 []).2 (Or.inl (by decide))).1
  · exact ((C9_create_validation initState
      (create_market initState (some 1) 0 "" "d" 1 ["A", "B"] 10).1 (some 1)
      0 "" "d" 1 ["A", "B"] 10 []).2 (Or.inl (by decide))).2

theorem min_if (a r : Nat) : (if a < r then a else r) = min a r := by
  by_cases h : a < r
  · rw [if_pos h]
    omega
  · rw [if_neg h]
    omega

/-- C1: when a reachable market is successfully resolved, every bet on it
whose option equals the correct answer receives
`min(max_reward, floor(bet.amount * total_pool / winning_pool))` and every
other bet on it keeps `reward_amount = 0`; and when `winning_pool = 0`
resolution still succeeds (provided its other preconditions hold) while
every reward stays 0 (the `min` formula also degenerates to 0 there, as
Nat division by zero is zero). -/
theorem C1_resolution_rewards (s : PredictionMarketState) (hs : Reachable s)
    (sg : Option Nat) (now mid : Nat) (ca : String) (m : Market)
    (hm : alookup mid s.markets = some m) :
    (∀ s1 ev, resolve_market s sg now mid ca = (s1, .ok ev) →
      ∀ k b, alookup k s1.user_bets = some b → k.1 = mid →
        (b.option = ca →
          b.reward_amount =
            min m.max_reward (b.amount * m.total_pool / (alookup ca m.bets).getD 0)) ∧
        (b.option ≠ ca → b.reward_amount = 0))
    ∧ ((alookup ca m.bets).getD 0 = 0 → sg = some m.creator →
        m.status ≠ MarketStatus.Resolved → m.end_time ≤ now → ca ∈ m.options →
        resolve_market s sg now mid ca =
          ({ s with
              markets := ainsert mid
                  { m with status := MarketStatus.Resolved, correct_answer := some ca }
                  s.markets },
           .ok [.MarketResolved mid ca])) := by
  have hInv := reachable_inv hs
  constructor
  · intro s1 ev hok k b hb hk1
    obtain ⟨caller, market, hsg, hmk, hcr, hres, hend, hca, hev, hcase⟩ :=
      resolve_market_ok hok
    rw [hm] at hmk
    cases hmk
    rcases hcase with ⟨hW, bets1, hass, hs1⟩ | ⟨hW0, hs1⟩
    · subst hs1
      have hmap := assignRewards_ok_eq hass
      subst hmap
      dsimp only at hb
      rw [alookup_map_keyfn] at hb
      cases ho : alookup k s.user_bets with
      | none => rw [ho] at hb; simp at hb
      | some b0 =>
        rw [ho] at hb
        have hb2 : rewardOf mid ca m.total_pool ((alookup ca m.bets).getD 0)
            m.max_reward k b0 = b := by simpa using hb
        have hT : 0 < m.total_pool := by
          have h1 := hInv.pool_sum mid m hm
          have h2 := alookup_getD_le_sumValues ca m.bets
          omega
        constructor
        · intro hbo
          rw [← hb2, rewardOf_option] at hbo
          rw [← hb2, rewardOf_of_eq _ _ _ _ _ _ _ ⟨hk1, hbo⟩]
          dsimp only
          rw [if_pos (show 0 < m.total_pool ∧
            0 < (alookup ca m.bets).getD 0 from ⟨hT, hW⟩)]
          exact min_if _ _
        · intro hbo
          have hbo0 : ¬ (k.1 = mid ∧ b0.option = ca) := by
            intro hc
            apply hbo
            rw [← hb2, rewardOf_option]
            exact hc.2
          rw [← hb2, rewardOf_of_ne _ _ _ _ _ _ _ hbo0]
          refine hInv.unresolved_zero k b0 m ho ?_ hres
          rw [hk1]
          exact hm
    · subst hs1
      dsimp only at hb
      have hz : b.reward_amount = 0 := by
        refine hInv.unresolved_zero k b m hb ?_ hres
        rw [hk1]
        exact hm
      constructor
      · intro hbo
        rw [hW0, Nat.div_zero, Nat.min_zero]
        exact hz
      · intro hbo
        exact hz
  · intro hW0 hsg hres hend hca
    subst hsg
    unfold resolve_market
    simp only [hm]
    rw [if_neg (show ¬ m.creator ≠ m.creator from fun hc => hc rfl)]
    rw [if_neg hres]
    rw [if_neg (Nat.not_lt.mpr hend)]
    rw [if_neg (show ¬ ¬ ca ∈ m.options from fun hc => hc hca)]
    rw [hW0]
    rw [if_neg (lt_irrefl 0)]

theorem C1_resolution_rewards_witness :
    (demoBet4.option = "Yes" →
      demoBet4.reward_amount =
        min demoMarket3.max_reward
          (demoBet4.amount * demoMarket3.total_pool /
            (alookup "Yes" demoMarket3.bets).getD 0)) ∧
    (demoBet4.option ≠ "Yes" → demoBet4.reward_amount = 0) :=
  (C1_resolution_rewards demoS3 demoS3_reach (some 1) 60000 1 "Yes" demoMarket3
    (by decide)).1 demoS4 [.MarketResolved 1 "Yes"] (by decide) (1, 2) demoBet4
    (by decide) rfl
